import Mathlib

/-!
Shallow embedding of the `bloomfilter` Go package (steakknife/bloomfilter
fork): the concurrent bit-vector core, its compatibility/union algebra and
its statistics, verified against the package's specification.

Modelling conventions:
* `uint64` values (words, keys, hashes) are `Nat`; every bitwise operation
  (`|||`, `&&&`, `^^^`, `<<<`, `>>>`, `%`) coincides with the Go operation on
  values below `2 ^ 64`, and none of them can overflow 64 bits when the
  inputs are below `2 ^ 64`.  The insertion counter `n` wraps at `2 ^ 64`
  exactly as Go's `atomic.Uint64.Add` does.
* The `[]atomic.Uint64` word array is a `List Nat`; `atomic.Uint64.Or`,
  `Load` and `Store` are plain reads/writes (the claims treated here are
  sequential).
* Fallible Go code is modelled with `Option`: an `Option.none` at the outer
  layer of `verifyCompatible` / `Union` / `UnionInPlace` models a Go runtime
  panic (index out of range), which is not an `error` return.
* Mutation is modelled by state passing: a Go method that mutates `f`
  becomes a function returning the new `Filter`; the operands passed in are
  values, so "`f2` is left unchanged" is reflected by the model never
  producing a modified `f2`.
-/

namespace Bloomfilter

/-- The Go `Filter` struct: `bits` is the `[]atomic.Uint64` word array,
`keys` the immutable key sequence, `m` the bit size, `n` the insertion
counter.  The `sync.RWMutex` field has no sequential content and is
represented only by `guardMode` below. -/
structure Filter where
  bits : List Nat
  keys : List Nat
  m : Nat
  n : Nat
deriving DecidableEq, Repr

/-- Go `uint64ToBool`. -/
def uint64ToBool (x : Nat) : Bool := x != 0

/-- The loop of Go `noBranchCompareUint64s`: `for i, b0i := range b0
{ r |= b0i ^ b1[i] }` with accumulator `r`.  The result is `none` when `b1`
is shorter than `b0`, in which case the Go code panics with an
index-out-of-range error on `b1[i]` (its comment warns: "does not compare
len(b0) with len(b1)"). -/
def noBranchCompareAux : Nat → List Nat → List Nat → Option Nat
  | r, [], _ => some r
  | _, _ :: _, [] => none
  | r, b0i :: b0, b1i :: b1 => noBranchCompareAux (r ||| (b0i ^^^ b1i)) b0 b1

/-- Go `noBranchCompareUint64s` (returns 0 iff equal on the compared
prefix); `none` models the index-out-of-range panic. -/
def noBranchCompareUint64s (b0 b1 : List Nat) : Option Nat :=
  noBranchCompareAux 0 b0 b1

/-- Go `M()`: the size of the Bloom filter in bits. -/
def Filter.M (f : Filter) : Nat := f.m

/-- Go `K()`: the count of keys. -/
def Filter.K (f : Filter) : Nat := f.keys.length

/-- Go `N()`: the insertion counter. -/
def Filter.N (f : Filter) : Nat := f.n

/-- Go `isCompatible` (lowercase): `f.M() == f2.M() && f.K() == f2.K() &&
noBranchCompareUint64s(f.keys, f2.keys) == 0`.  Because Go `&&`
short-circuits, the comparison loop only runs when the key counts agree, so
it never panics here; the `Option`-valued model gives the same `Bool` since
`none == some 0` is `false`. -/
def Filter.isCompatible (f f2 : Filter) : Bool :=
  f.M == f2.M && f.K == f2.K && noBranchCompareUint64s f.keys f2.keys == some 0

/-- Go exported `IsCompatible`: takes both read locks, then `isCompatible`. -/
def Filter.IsCompatible (f f2 : Filter) : Bool :=
  f.isCompatible f2

/-- The string Go builds for a size mismatch.  The source prints the two
`K()` values under an `M=` label (`fmt.Sprintf("M=%d and M=%d", f.K(),
f2.K())`), and the model reproduces that faithfully: it receives the key
counts. -/
def mMismatchMsg (k k2 : Nat) : String := s!"M={k} and M={k2}"

/-- The string Go builds for a key-count mismatch:
`fmt.Sprintf("K=%d and K=%d", f.K(), f2.K())`. -/
def kMismatchMsg (k k2 : Nat) : String := s!"K={k} and K={k2}"

/-- The Go `errIncompatible` error value: the slice of (possibly empty)
component strings. -/
structure ErrIncompatible where
  s : List String
deriving DecidableEq, Repr

/-- Go `(*errIncompatible).Error()`: drop the empty components, join the
rest with ", " after the fixed prefix. -/
def ErrIncompatible.Error (e : ErrIncompatible) : String :=
  "Cannot perform union on two incompatible Bloom filters: " ++
    String.intercalate ", " (e.s.filter (fun i => i != ""))

/-- Go `errIncompatibleBloomFilters`. -/
def errIncompatibleBloomFilters (s : List String) : ErrIncompatible := ⟨s⟩

/-- Go `verifyCompatible`.  `some none` models a `nil` error return,
`some (some e)` a returned `errIncompatible`, and the outer `none` the
runtime panic that `noBranchCompareUint64s(f.keys, f2.keys)` raises on line
62 whenever `f.keys` is longer than `f2.keys` (the call is unguarded there,
unlike in `isCompatible` where short-circuiting protects it).  In Go the
`e[0]`/`e[1]` strings are assigned before the panicking call, but those
assignments are unobservable, so the model may sequence the comparison
first. -/
def Filter.verifyCompatible (f f2 : Filter) : Option (Option ErrIncompatible) :=
  if f.isCompatible f2 then some none
  else
    match noBranchCompareUint64s f.keys f2.keys with
    | none => none
    | some cmp =>
      let e0 := if f.M ≠ f2.M then mMismatchMsg f.K f2.K else ""
      let e1 := if f.K ≠ f2.K then kMismatchMsg f.K f2.K else ""
      let e2 := if cmp ≠ 0 then "Mismatched Keys" else ""
      some (some (errIncompatibleBloomFilters [e0, e1, e2]))

/-- Go `hash`: `hashes[i] = rawHash ^ f.keys[i]` for each key position. -/
def Filter.hash (f : Filter) (rawHash : Nat) : List Nat :=
  f.keys.map (fun key => rawHash ^^^ key)

/-- One Go bit-set step `f.bits[i>>6].Or(1 << uint(i&0x3f))`, applied to an
already-reduced index `i`. -/
def setBitWord (bs : List Nat) (i : Nat) : List Nat :=
  bs.set (i >>> 6) (bs.getD (i >>> 6) 0 ||| 1 <<< (i &&& 0x3f))

/-- One Go bit-read step `(f.bits[i>>6].Load() >> uint(i&0x3f)) & 1`,
applied to an already-reduced index `i`. -/
def getBitVal (bs : List Nat) (i : Nat) : Nat :=
  (bs.getD (i >>> 6) 0 >>> (i &&& 0x3f)) &&& 1

/-- Go `Add`: for every derived hash, reduce mod `m` and OR the bit in;
then increment `n` (a 64-bit atomic add, hence the wrap at `2 ^ 64`). -/
def Filter.Add (f : Filter) (v : Nat) : Filter :=
  { f with
    bits := (f.hash v).foldl (fun bs i => setBitWord bs (i % f.m)) f.bits
    n := (f.n + 1) % 2 ^ 64 }

/-- Go `AddC`: like `Add`, but each step first reads the bit's prior value
into the AND-accumulator `r` and then sets the bit; returns the filter with
`n` incremented together with `uint64ToBool r`. -/
def Filter.AddC (f : Filter) (v : Nat) : Filter × Bool :=
  let p := (f.hash v).foldl
    (fun (p : List Nat × Nat) i =>
      (setBitWord p.1 (i % f.m), p.2 &&& getBitVal p.1 (i % f.m)))
    (f.bits, 1)
  ({ f with bits := p.1, n := (f.n + 1) % 2 ^ 64 }, uint64ToBool p.2)

/-- Go `Contains`: AND-reduce the k target bits, mutating nothing. -/
def Filter.Contains (f : Filter) (v : Nat) : Bool :=
  uint64ToBool ((f.hash v).foldl (fun r i => r &&& getBitVal f.bits (i % f.m)) 1)

/-- Modelled from the spec: the `NewCompatible` factory is not among the
provided sources (only its callers `Copy` and `Union` are).  Per the spec it
"clones another filter's (m, keys) with a zeroed bit vector and n=0", the
word array having its fixed construction length `ceil(m/64)`; its error
return is always `nil` for parameters taken from an already-validated
filter, so the model is total. -/
def Filter.NewCompatible (f : Filter) : Filter :=
  { bits := List.replicate ((f.m + 63) / 64) 0
    keys := f.keys
    m := f.m
    n := 0 }

/-- The word loop of Go `UnionInPlace`: `for i, word := range f2.bits
{ f.bits[i].Or(word.Load()) }`.  The `[]`/cons case would be an
index-out-of-range panic in Go; it cannot arise for compatible operands,
whose word arrays have equal length. -/
def orWords : List Nat → List Nat → List Nat
  | dst, [] => dst
  | [], _ :: _ => []
  | d :: dst, s :: src => (d ||| s) :: orWords dst src

/-- Go `UnionInPlace`: verify compatibility, then OR every word of `f2`
into `f`.  `none` models the panic propagated out of `verifyCompatible`;
otherwise the pair holds the post-state of `f` and the returned error.  `n`
is not touched, and `f2` is only read. -/
def Filter.UnionInPlace (f f2 : Filter) : Option (Filter × Option ErrIncompatible) :=
  match f.verifyCompatible f2 with
  | none => none
  | some (some e) => some (f, some e)
  | some none => some ({ f with bits := orWords f.bits f2.bits }, none)

/-- The word loop of Go `Union`: `for i, word := range f2.bits
{ out.bits[i].Store(f.bits[i].Load() | word.Load()) }`.  The final wildcard
case covers the index-out-of-range panics when `out.bits` or `f.bits` is
shorter than `f2.bits`, which cannot arise for compatible operands. -/
def storeOrWords : List Nat → List Nat → List Nat → List Nat
  | out, _, [] => out
  | _ :: out, fw :: fb, s :: src => (fw ||| s) :: storeOrWords out fb src
  | _, _, _ => []

/-- Go `Union`: verify compatibility, allocate a fresh compatible filter,
store the word-wise OR of both operands into it.  The operands are only
read. -/
def Filter.Union (f f2 : Filter) : Option (Option Filter × Option ErrIncompatible) :=
  match f.verifyCompatible f2 with
  | none => none
  | some (some e) => some (none, some e)
  | some none =>
    let out := f.NewCompatible
    some (some { out with bits := storeOrWords out.bits f.bits f2.bits }, none)

/-- The two acquisition modes of the per-filter `sync.RWMutex` guard:
`shared` is `RLock`, `exclusive` is `Lock`. -/
inductive LockMode where
  | shared
  | exclusive
deriving DecidableEq, Repr

/-- The guarded operations of the core. -/
inductive GuardedOp where
  | add
  | addC
  | containsQ
  | copy
  | union
  | unionInPlace
  | isCompatibleQ
  | verifyCompat
deriving DecidableEq, Repr

/-- The acquisition mode each operation uses on the filters it touches,
read off the source's lock calls: `Add`, `AddC` and `Contains` call
`f.lock.RLock()`; `Copy` calls `f.lock.Lock()`; `Union`, `UnionInPlace`,
`IsCompatible` and `verifyCompatible` call `RLock` on both `f` and `f2`. -/
def guardMode : GuardedOp → LockMode
  | .add => .shared
  | .addC => .shared
  | .containsQ => .shared
  | .copy => .exclusive
  | .union => .shared
  | .unionInPlace => .shared
  | .isCompatibleQ => .shared
  | .verifyCompat => .shared

/-- An exported mutating/query call on an existing filter, for stating
properties over arbitrary sequential interleavings. -/
inductive FilterOpCall where
  | add (v : Nat)
  | addC (v : Nat)
  | containsQ (v : Nat)
  | unionInPlace (f2 : Filter)
deriving DecidableEq

/-- The state of `f` after `f.UnionInPlace(f2)`: a failed call (error or
panic) performs no write at all, a successful one installs the ORed words. -/
def applyUnionInPlace (f f2 : Filter) : Filter :=
  match f.UnionInPlace f2 with
  | some (f', none) => f'
  | _ => f

/-- The filter state after one sequential call; `Contains` only reads. -/
def applyOp (f : Filter) : FilterOpCall → Filter
  | .add v => f.Add v
  | .addC v => (f.AddC v).1
  | .containsQ _ => f
  | .unionInPlace f2 => applyUnionInPlace f f2

/-- The filter state after a sequence of calls. -/
def runOps (f : Filter) (ops : List FilterOpCall) : Filter :=
  ops.foldl applyOp f

/-- Real-number model of the Go float64 `FalsePosititveProbability` [sic].
The Go expression is `math.Pow(1.0-math.Exp(-k)*(n+0.5)/(m-1), k)`: by Go
precedence the `Exp` call applies to `-k` alone and its result is then
multiplied by `(n+0.5)/(m-1)`. -/
noncomputable def Filter.FalsePosititveProbability (f : Filter) : ℝ :=
  (1 - Real.exp (-(f.K : ℝ)) * ((f.N : ℝ) + 0.5) / ((f.M : ℝ) - 1)) ^ (f.K : ℝ)

/-- The formula the spec (and the function's own doc comment) states:
`(1 - exp(-k*(n+0.5)/(m-1))) ** k` on the filter's current k, n, m. -/
noncomputable def specFalsePositiveProbability (f : Filter) : ℝ :=
  (1 - Real.exp (-((f.K : ℝ) * ((f.N : ℝ) + 0.5) / ((f.M : ℝ) - 1)))) ^ (f.K : ℝ)

/-- A concrete one-word filter (the spec's §8 scenario: m = 64, keys = [1]). -/
def exFilter : Filter := { bits := [0], keys := [1], m := 64, n := 0 }

/-- A concrete filter compatible with `exFilter` holding hash 9
(bit (9 XOR 1) mod 64 = 8). -/
def exFilter2 : Filter := exFilter.Add 9

/-- A concrete filter with k = 1, n = 0, m = 2, for evaluating the
false-positive-probability formulas. -/
def fppExample : Filter := { bits := [1], keys := [0], m := 2, n := 0 }

/-- A filter whose key list is strictly longer than `panicF2`'s. -/
def panicF : Filter := { bits := [0], keys := [0, 1], m := 64, n := 0 }

/-- Same size as `panicF` but fewer keys: an incompatible pair on which the
Go `verifyCompatible` indexes past the end of `f2.keys`. -/
def panicF2 : Filter := { bits := [0], keys := [0], m := 64, n := 0 }

/-- The membership predicate a Bloom filter realizes: every one of the k
target bits derived from hash `v` is set in `bs`-indexed-by-`f`.  `Contains`
answers exactly this (cf. `contains_iff`). -/
def Filter.HasAll (f : Filter) (v : Nat) : Prop :=
  ∀ key ∈ f.keys, getBitVal f.bits ((v ^^^ key) % f.m) ≠ 0

instance (f : Filter) (v : Nat) : Decidable (f.HasAll v) := by
  unfold Filter.HasAll; infer_instance

/-- Word-array growth: `b` has every bit of `a`, word by word, and the
array length is unchanged. -/
def BitsMono (a b : List Nat) : Prop :=
  b.length = a.length ∧ ∀ j, a.getD j 0 ||| b.getD j 0 = b.getD j 0

/-- One step of the `AddC` loop, for stating facts about its fold. -/
def addCStep (m : Nat) (p : List Nat × Nat) (i : Nat) : List Nat × Nat :=
  (setBitWord p.1 (i % m), p.2 &&& getBitVal p.1 (i % m))

/-! ## List and single-word helper lemmas -/

theorem getD_set_self (bs : List Nat) (j w : Nat) (h : j < bs.length) :
    (bs.set j w).getD j 0 = w := by
  induction bs generalizing j with
  | nil => simp at h
  | cons b bs ih =>
    cases j with
    | zero => rfl
    | succ j => simpa using ih j (by simpa using h)

theorem getD_set_other (bs : List Nat) (j j' w : Nat) (h : j ≠ j') :
    (bs.set j w).getD j' 0 = bs.getD j' 0 := by
  induction bs generalizing j j' with
  | nil => rfl
  | cons b bs ih =>
    cases j with
    | zero => cases j' with
      | zero => exact absurd rfl h
      | succ j' => rfl
    | succ j => cases j' with
      | zero => rfl
      | succ j' => simpa using ih j j' (by omega)

theorem set_getD_self (bs : List Nat) (j : Nat) : bs.set j (bs.getD j 0) = bs := by
  induction bs generalizing j with
  | nil => rfl
  | cons b bs ih =>
    cases j with
    | zero => rfl
    | succ j => simpa using ih j

theorem or_eq_zero_iff (x y : Nat) : x ||| y = 0 ↔ x = 0 ∧ y = 0 := by
  constructor
  · intro h
    constructor <;> apply Nat.eq_of_testBit_eq <;> intro i <;>
      · have ht := congrArg (fun z => Nat.testBit z i) h
        simp only [Nat.testBit_or, Nat.zero_testBit, Bool.or_eq_false_iff] at ht
        simp [ht.1, ht.2]
  · rintro ⟨rfl, rfl⟩
    rfl

theorem or_eq_right_iff (x y : Nat) :
    x ||| y = y ↔ ∀ t, x.testBit t = true → y.testBit t = true := by
  constructor
  · intro h t ht
    have hc := congrArg (fun z => Nat.testBit z t) h
    simp only [Nat.testBit_or, ht, Bool.true_or] at hc
    exact hc.symm
  · intro h
    apply Nat.eq_of_testBit_eq
    intro t
    rw [Nat.testBit_or]
    cases hx : x.testBit t with
    | false => simp
    | true => simp [h t hx]

theorem getBitVal_le_one (bs : List Nat) (i : Nat) : getBitVal bs i ≤ 1 :=
  Nat.and_le_right

theorem getBitVal_ne_zero_iff (bs : List Nat) (i : Nat) :
    getBitVal bs i ≠ 0 ↔ (bs.getD (i >>> 6) 0).testBit (i &&& 0x3f) = true := by
  unfold getBitVal
  rw [Nat.and_one_is_mod, Nat.shiftRight_eq_div_pow]
  rcases Nat.mod_two_eq_zero_or_one (bs.getD (i >>> 6) 0 / 2 ^ (i &&& 0x3f)) with h | h <;>
    simp [Nat.testBit_to_div_mod, h]

theorem testBit_one_shiftLeft (s t : Nat) :
    (1 <<< s).testBit t = decide (s = t) := by
  rw [Nat.one_shiftLeft, Nat.testBit_two_pow]

/-! ## `BitsMono` -/

theorem bitsMono_refl (bs : List Nat) : BitsMono bs bs :=
  ⟨rfl, fun _ => Nat.or_self _⟩

theorem bitsMono_trans {a b c : List Nat} (h1 : BitsMono a b) (h2 : BitsMono b c) :
    BitsMono a c := by
  refine ⟨h2.1.trans h1.1, fun j => ?_⟩
  have e1 := h1.2 j
  have e2 := h2.2 j
  calc a.getD j 0 ||| c.getD j 0
      = a.getD j 0 ||| (b.getD j 0 ||| c.getD j 0) := by rw [e2]
    _ = (a.getD j 0 ||| b.getD j 0) ||| c.getD j 0 := (Nat.or_assoc ..).symm
    _ = b.getD j 0 ||| c.getD j 0 := by rw [e1]
    _ = c.getD j 0 := e2

theorem getBitVal_mono {a b : List Nat} (h : BitsMono a b) {i : Nat}
    (hv : getBitVal a i ≠ 0) : getBitVal b i ≠ 0 := by
  rw [getBitVal_ne_zero_iff] at hv ⊢
  exact (or_eq_right_iff _ _).1 (h.2 (i >>> 6)) _ hv

theorem bitsMono_setBitWord (bs : List Nat) (i : Nat) :
    BitsMono bs (setBitWord bs i) := by
  refine ⟨List.length_set .., fun j => ?_⟩
  unfold setBitWord
  by_cases hj : i >>> 6 = j
  · subst hj
    by_cases hlt : i >>> 6 < bs.length
    · rw [getD_set_self _ _ _ hlt, ← Nat.or_assoc, Nat.or_self]
    · rw [List.set_eq_of_length_le (by omega), Nat.or_self]
  · rw [getD_set_other _ _ _ _ hj, Nat.or_self]

theorem getBitVal_setBitWord_self (bs : List Nat) (i : Nat)
    (h : i >>> 6 < bs.length) : getBitVal (setBitWord bs i) i ≠ 0 := by
  rw [getBitVal_ne_zero_iff]
  unfold setBitWord
  rw [getD_set_self _ _ _ h, Nat.testBit_or, testBit_one_shiftLeft]
  simp

theorem setBitWord_of_set {bs : List Nat} {i : Nat} (h : getBitVal bs i ≠ 0) :
    setBitWord bs i = bs := by
  rw [getBitVal_ne_zero_iff] at h
  unfold setBitWord
  have : bs.getD (i >>> 6) 0 ||| 1 <<< (i &&& 0x3f) = bs.getD (i >>> 6) 0 := by
    apply Nat.eq_of_testBit_eq
    intro t
    rw [Nat.testBit_or, testBit_one_shiftLeft]
    by_cases ht : i &&& 0x3f = t
    · subst ht; rw [h]; simp
    · simp [ht]
  rw [this, set_getD_self]

/-! ## Fold lemmas for the AND-reduction and the bit-setting loops -/

theorem foldl_and_eq (g : Nat → Nat) (hg : ∀ i, g i ≤ 1) (l : List Nat) :
    ∀ a : Nat, a ≤ 1 →
      l.foldl (fun r i => r &&& g i) a =
        if a = 1 ∧ ∀ i ∈ l, g i ≠ 0 then 1 else 0 := by
  induction l with
  | nil =>
    intro a ha
    rcases (by omega : a = 0 ∨ a = 1) with rfl | rfl <;> simp
  | cons j l ih =>
    intro a ha
    rw [List.foldl_cons, ih _ (Nat.le_trans Nat.and_le_left ha)]
    have hgj := hg j
    rcases (by omega : a = 0 ∨ a = 1) with rfl | rfl
    · simp
    · rcases (by omega : g j = 0 ∨ g j = 1) with h | h <;>
        simp [h, List.forall_mem_cons]

theorem foldSet_mono (m : Nat) (l : List Nat) :
    ∀ bs : List Nat, BitsMono bs (l.foldl (fun bs i => setBitWord bs (i % m)) bs) := by
  induction l with
  | nil => exact fun bs => bitsMono_refl bs
  | cons j l ih =>
    intro bs
    rw [List.foldl_cons]
    exact bitsMono_trans (bitsMono_setBitWord bs (j % m)) (ih _)

theorem foldSet_sets (m : Nat) (l : List Nat) :
    ∀ bs : List Nat, ∀ i ∈ l, (i % m) >>> 6 < bs.length →
      getBitVal (l.foldl (fun bs i => setBitWord bs (i % m)) bs) (i % m) ≠ 0 := by
  induction l with
  | nil => intro bs i hi; simp at hi
  | cons j l ih =>
    intro bs i hi hlt
    rw [List.foldl_cons]
    rcases List.mem_cons.1 hi with rfl | hi
    · exact getBitVal_mono (foldSet_mono m l _)
        (getBitVal_setBitWord_self bs (i % m) hlt)
    · exact ih _ i hi (by rw [(bitsMono_setBitWord bs (j % m)).1]; exact hlt)

theorem addC_fold_bits (m : Nat) (l : List Nat) :
    ∀ bs r, (l.foldl (addCStep m) (bs, r)).1 =
      l.foldl (fun bs i => setBitWord bs (i % m)) bs := by
  induction l with
  | nil => intro bs r; rfl
  | cons j l ih => intro bs r; rw [List.foldl_cons, List.foldl_cons]; exact ih _ _

theorem addC_fold_zero (m : Nat) (l : List Nat) :
    ∀ bs, (l.foldl (addCStep m) (bs, 0)).2 = 0 := by
  induction l with
  | nil => intro bs; rfl
  | cons j l ih =>
    intro bs
    rw [List.foldl_cons]
    show (l.foldl (addCStep m) (setBitWord bs (j % m), 0 &&& _)).2 = 0
    rw [Nat.zero_and]
    exact ih _

theorem addC_fold_allset (m : Nat) (l : List Nat) :
    ∀ bs, (∀ i ∈ l, getBitVal bs (i % m) ≠ 0) →
      l.foldl (addCStep m) (bs, 1) = (bs, 1) := by
  induction l with
  | nil => intro bs _; rfl
  | cons j l ih =>
    intro bs hall
    rw [List.foldl_cons]
    have hj := hall j (List.mem_cons_self ..)
    have h1 : getBitVal bs (j % m) = 1 := by
      have := getBitVal_le_one bs (j % m); omega
    show l.foldl (addCStep m) (setBitWord bs (j % m), 1 &&& getBitVal bs (j % m)) = _
    rw [setBitWord_of_set hj, h1]
    exact ih bs (fun i hi => hall i (List.mem_cons_of_mem _ hi))

theorem addC_fold_notall (m : Nat) (l : List Nat) :
    ∀ bs, (∃ i ∈ l, getBitVal bs (i % m) = 0) →
      (l.foldl (addCStep m) (bs, 1)).2 = 0 := by
  induction l with
  | nil => rintro bs ⟨i, hi, _⟩; simp at hi
  | cons j l ih =>
    rintro bs ⟨i, hi, hzero⟩
    rw [List.foldl_cons]
    by_cases hj : getBitVal bs (j % m) = 0
    · show (l.foldl (addCStep m) (setBitWord bs (j % m), 1 &&& getBitVal bs (j % m))).2 = 0
      rw [hj]
      exact addC_fold_zero m l _
    · have h1 : getBitVal bs (j % m) = 1 := by
        have := getBitVal_le_one bs (j % m); omega
      show (l.foldl (addCStep m) (setBitWord bs (j % m), 1 &&& getBitVal bs (j % m))).2 = 0
      rw [setBitWord_of_set hj, h1]
      rcases List.mem_cons.1 hi with rfl | hi
      · exact absurd hzero hj
      · exact ih bs ⟨i, hi, hzero⟩

/-! ## Characterizations of `Contains`, `Add`, `AddC` -/

theorem contains_iff (f : Filter) (v : Nat) :
    f.Contains v = true ↔ f.HasAll v := by
  unfold Filter.Contains Filter.HasAll
  rw [foldl_and_eq (fun i => getBitVal f.bits (i % f.m))
    (fun i => getBitVal_le_one f.bits (i % f.m)) (f.hash v) 1 (le_refl 1)]
  unfold Filter.hash uint64ToBool
  by_cases hall : ∀ key ∈ f.keys, getBitVal f.bits ((v ^^^ key) % f.m) ≠ 0 <;>
    simp [List.mem_map, hall]

theorem add_keys (f : Filter) (v : Nat) : (f.Add v).keys = f.keys := rfl

theorem add_m (f : Filter) (v : Nat) : (f.Add v).m = f.m := rfl

theorem add_bitsMono (f : Filter) (v : Nat) : BitsMono f.bits (f.Add v).bits :=
  foldSet_mono f.m (f.hash v) f.bits

theorem addC_bits_eq (f : Filter) (v : Nat) : (f.AddC v).1.bits = (f.Add v).bits := by
  show ((f.hash v).foldl (addCStep f.m) (f.bits, 1)).1 = _
  rw [addC_fold_bits]
  rfl

theorem addC_bitsMono (f : Filter) (v : Nat) : BitsMono f.bits (f.AddC v).1.bits := by
  rw [addC_bits_eq]
  exact add_bitsMono f v

theorem hasAll_mono {f g : Filter} (hk : g.keys = f.keys) (hm : g.m = f.m)
    (hb : BitsMono f.bits g.bits) {v : Nat} (h : f.HasAll v) : g.HasAll v := by
  intro key hkey
  rw [hk] at hkey
  rw [hm]
  exact getBitVal_mono hb (h key hkey)

/-- The word index of every in-range reduced bit index is a valid position
of a word array of the construction length `ceil(m/64)`. -/
theorem wordIndex_lt {m len : Nat} (hm : 1 ≤ m) (hlen : len = (m + 63) / 64)
    (i : Nat) : (i % m) >>> 6 < len := by
  subst hlen
  have h1 : i % m ≤ m - 1 := by
    have := Nat.mod_lt i (show 0 < m by omega)
    omega
  have h2 : (i % m) >>> 6 ≤ (m - 1) >>> 6 := by
    rw [Nat.shiftRight_eq_div_pow, Nat.shiftRight_eq_div_pow]
    exact Nat.div_le_div_right h1
  have h3 : (m - 1) / 64 < (m + 63) / 64 := by
    have he : m + 63 = (m - 1) + 64 := by omega
    rw [he, Nat.add_div_right _ (by omega)]
    omega
  rw [Nat.shiftRight_eq_div_pow] at h2
  omega

theorem add_hasAll (f : Filter) (v : Nat) (hm : 1 ≤ f.m)
    (hlen : f.bits.length = (f.m + 63) / 64) : (f.Add v).HasAll v := by
  intro key hkey
  rw [add_m, add_keys] at *
  exact foldSet_sets f.m (f.hash v) f.bits (v ^^^ key)
    (List.mem_map.2 ⟨key, hkey, rfl⟩) (wordIndex_lt hm hlen _)

/-! ## Compatibility -/

theorem noBranchCompareAux_eq_zero_iff (b0 : List Nat) :
    ∀ b1 : List Nat, ∀ r : Nat, b0.length = b1.length →
      (noBranchCompareAux r b0 b1 = some 0 ↔ r = 0 ∧ b0 = b1) := by
  induction b0 with
  | nil =>
    intro b1 r h
    cases b1 with
    | nil => simp [noBranchCompareAux, eq_comm]
    | cons y ys => simp at h
  | cons x xs ih =>
    intro b1 r h
    cases b1 with
    | nil => simp at h
    | cons y ys =>
      rw [show noBranchCompareAux r (x :: xs) (y :: ys) =
        noBranchCompareAux (r ||| (x ^^^ y)) xs ys from rfl]
      rw [ih ys _ (by simpa using h)]
      rw [or_eq_zero_iff, Nat.xor_eq_zero]
      constructor
      · rintro ⟨⟨hr, rfl⟩, rfl⟩
        exact ⟨hr, rfl⟩
      · rintro ⟨hr, he⟩
        obtain ⟨rfl, rfl⟩ := List.cons.injEq .. ▸ he
        exact ⟨⟨hr, rfl⟩, rfl⟩

theorem noBranchCompare_eq_zero_iff {b0 b1 : List Nat} (h : b0.length = b1.length) :
    noBranchCompareUint64s b0 b1 = some 0 ↔ b0 = b1 := by
  unfold noBranchCompareUint64s
  rw [noBranchCompareAux_eq_zero_iff b0 b1 0 h]
  simp

theorem isCompatible_iff (f f2 : Filter) :
    f.isCompatible f2 = true ↔ f.m = f2.m ∧ f.keys = f2.keys := by
  unfold Filter.isCompatible Filter.M Filter.K
  simp only [Bool.and_eq_true, beq_iff_eq]
  constructor
  · rintro ⟨⟨hm, hk⟩, hcmp⟩
    exact ⟨hm, (noBranchCompare_eq_zero_iff hk).1 hcmp⟩
  · rintro ⟨hm, hkeys⟩
    exact ⟨⟨hm, by rw [hkeys]⟩, (noBranchCompare_eq_zero_iff (by rw [hkeys])).2 hkeys⟩

theorem verifyCompatible_of_compatible {f f2 : Filter}
    (h : f.isCompatible f2 = true) : f.verifyCompatible f2 = some none := by
  unfold Filter.verifyCompatible
  rw [h]
  rfl

/-! ## The union word loops -/

theorem orWords_eq_zipWith : ∀ dst src : List Nat, dst.length = src.length →
    orWords dst src = List.zipWith (fun a b => a ||| b) dst src
  | [], [], _ => rfl
  | [], _ :: _, h => by simp at h
  | _ :: _, [], h => by simp at h
  | d :: dst, s :: src, h => by
    rw [show orWords (d :: dst) (s :: src) = (d ||| s) :: orWords dst src from rfl]
    rw [orWords_eq_zipWith dst src (by simpa using h)]
    rfl

theorem orWords_nil : ∀ dst : List Nat, orWords dst [] = dst
  | [] => rfl
  | _ :: _ => rfl

theorem bitsMono_orWords : ∀ dst src : List Nat, BitsMono dst (orWords dst src)
  | dst, [] => by rw [orWords_nil]; exact bitsMono_refl dst
  | [], _ :: _ => ⟨rfl, fun j => by simp⟩
  | d :: dst, s :: src => by
    obtain ⟨hl, hg⟩ := bitsMono_orWords dst src
    rw [show orWords (d :: dst) (s :: src) = (d ||| s) :: orWords dst src from rfl]
    refine ⟨by simpa using hl, fun j => ?_⟩
    cases j with
    | zero =>
      show d ||| (d ||| s) = d ||| s
      rw [← Nat.or_assoc, Nat.or_self]
    | succ j => simpa using hg j

theorem storeOrWords_eq_zipWith :
    ∀ out fb sb : List Nat, out.length = fb.length → fb.length = sb.length →
      storeOrWords out fb sb = List.zipWith (fun a b => a ||| b) fb sb
  | out, fb, [], h1, h2 => by
    have hfb : fb = [] := List.eq_nil_of_length_eq_zero (by simpa using h2)
    subst hfb
    have hout : out = [] := List.eq_nil_of_length_eq_zero (by simpa using h1)
    subst hout
    rfl
  | o :: out, fw :: fb, s :: sb, h1, h2 => by
    rw [show storeOrWords (o :: out) (fw :: fb) (s :: sb) =
      (fw ||| s) :: storeOrWords out fb sb from rfl]
    rw [storeOrWords_eq_zipWith out fb sb (by simpa using h1) (by simpa using h2)]
    rfl
  | [], fb, s :: sb, h1, h2 => by
    have hfb : fb = [] := List.eq_nil_of_length_eq_zero (by simpa using h1.symm)
    subst hfb
    simp at h2
  | o :: out, [], s :: sb, h1, h2 => by simp at h1

/-! ## Sequential-call invariants -/

theorem unionInPlace_result (f f2 : Filter) :
    f.UnionInPlace f2 = none ∨
      (∃ e, f.UnionInPlace f2 = some (f, some e)) ∨
      f.UnionInPlace f2 = some ({ f with bits := orWords f.bits f2.bits }, none) := by
  unfold Filter.UnionInPlace
  cases f.verifyCompatible f2 with
  | none => exact Or.inl rfl
  | some o =>
    cases o with
    | none => exact Or.inr (Or.inr rfl)
    | some e => exact Or.inr (Or.inl ⟨e, rfl⟩)

theorem applyOp_unionInPlace_eq (f f2 : Filter) :
    applyOp f (.unionInPlace f2) = f ∨
      applyOp f (.unionInPlace f2) = { f with bits := orWords f.bits f2.bits } := by
  show applyUnionInPlace f f2 = f ∨ applyUnionInPlace f f2 = _
  unfold applyUnionInPlace
  rcases unionInPlace_result f f2 with h | ⟨e, h⟩ | h
  · rw [h]
    exact Or.inl rfl
  · rw [h]
    exact Or.inl rfl
  · rw [h]
    exact Or.inr rfl

theorem applyOp_keys (f : Filter) (op : FilterOpCall) : (applyOp f op).keys = f.keys := by
  cases op with
  | add v => rfl
  | addC v => rfl
  | containsQ v => rfl
  | unionInPlace f2 =>
    rcases applyOp_unionInPlace_eq f f2 with h | h <;> rw [h]

theorem applyOp_m (f : Filter) (op : FilterOpCall) : (applyOp f op).m = f.m := by
  cases op with
  | add v => rfl
  | addC v => rfl
  | containsQ v => rfl
  | unionInPlace f2 =>
    rcases applyOp_unionInPlace_eq f f2 with h | h <;> rw [h]

theorem applyOp_bitsMono (f : Filter) (op : FilterOpCall) :
    BitsMono f.bits (applyOp f op).bits := by
  cases op with
  | add v => exact add_bitsMono f v
  | addC v => exact addC_bitsMono f v
  | containsQ v => exact bitsMono_refl f.bits
  | unionInPlace f2 =>
    rcases applyOp_unionInPlace_eq f f2 with h | h <;> rw [h]
    · exact bitsMono_refl f.bits
    · exact bitsMono_orWords f.bits f2.bits

theorem applyOp_hasAll {f : Filter} {v : Nat} (h : f.HasAll v) (op : FilterOpCall) :
    (applyOp f op).HasAll v :=
  hasAll_mono (applyOp_keys f op) (applyOp_m f op) (applyOp_bitsMono f op) h

theorem runOps_hasAll {f : Filter} {v : Nat} (h : f.HasAll v) (ops : List FilterOpCall) :
    (runOps f ops).HasAll v := by
  induction ops generalizing f with
  | nil => exact h
  | cons op ops ih => exact ih (applyOp_hasAll h op)

/-! ## `AddC` result characterization -/

theorem addC_snd_iff (f : Filter) (v : Nat) : (f.AddC v).2 = true ↔ f.HasAll v := by
  show uint64ToBool ((f.hash v).foldl (addCStep f.m) (f.bits, 1)).2 = true ↔ _
  by_cases h : f.HasAll v
  · have hall : ∀ i ∈ f.hash v, getBitVal f.bits (i % f.m) ≠ 0 := by
      intro i hi
      obtain ⟨key, hkey, rfl⟩ := List.mem_map.1 hi
      exact h key hkey
    rw [addC_fold_allset f.m (f.hash v) f.bits hall]
    simp [uint64ToBool, h]
  · have hex : ∃ i ∈ f.hash v, getBitVal f.bits (i % f.m) = 0 := by
      unfold Filter.HasAll at h
      push_neg at h
      obtain ⟨key, hkey, hzero⟩ := h
      exact ⟨v ^^^ key, List.mem_map.2 ⟨key, hkey, rfl⟩, hzero⟩
    rw [addC_fold_notall f.m (f.hash v) f.bits hex]
    simp [uint64ToBool, h]

theorem getBitVal_of_all_zero {bs : List Nat} (h : ∀ w ∈ bs, w = 0) (i : Nat) :
    getBitVal bs i = 0 := by
  unfold getBitVal
  have hz : bs.getD (i >>> 6) 0 = 0 := by
    rw [List.getD_eq_getElem?_getD]
    cases hg : bs[i >>> 6]? with
    | none => rfl
    | some w => exact h w (List.getElem?_mem hg)
  rw [hz, Nat.zero_shiftRight, Nat.zero_and]

/-! ## Claims -/

/-- C1: no false negatives.  For every 64-bit hash `v`, once `Add(v)` has
been called on a filter satisfying the construction invariants (`m ≥ 1`,
`len(bits) = ceil(m/64)`), every subsequent `Contains(v)` on that filter
returns true, regardless of intervening `Add`, `AddC`, `Contains`, or
(successful or failed) `UnionInPlace` calls, executed sequentially. -/
theorem add_then_contains (f : Filter) (v : Nat) (ops : List FilterOpCall)
    (hm : 1 ≤ f.m) (hlen : f.bits.length = (f.m + 63) / 64) :
    (runOps (f.Add v) ops).Contains v = true := by
  rw [contains_iff]
  exact runOps_hasAll (add_hasAll f v hm hlen) ops

theorem add_then_contains_witness :
    (runOps (exFilter.Add 5)
      [.add 7, .addC 3, .unionInPlace exFilter2, .containsQ 2]).Contains 5 = true :=
  add_then_contains exFilter 5
    [.add 7, .addC 3, .unionInPlace exFilter2, .containsQ 2] (by decide) (by decide)

/-- C2: the claim says `FalsePositiveProbability` returns exactly
`(1 − e^{−k·(n+0.5)/(m−1)})^k`, which is also the function's own doc
comment.  The code computes `math.Pow(1.0-math.Exp(-k)*(n+0.5)/(m-1), k)`,
where `Exp` applies to `-k` alone: at the concrete filter with k = 1, n = 0,
m = 2 the code yields `1 − e^{−1}/2` while the documented formula yields
`1 − e^{−1/2}`, and the two differ.  (Real-number model of the float64
computation; the divergence is a misplaced parenthesis, not rounding.) -/
theorem fpp_formula_mismatch :
    fppExample.FalsePosititveProbability ≠ specFalsePositiveProbability fppExample := by
  have hK : (fppExample.K : ℝ) = 1 := by norm_num [Filter.K, fppExample]
  have hN : (fppExample.N : ℝ) = 0 := by norm_num [Filter.N, fppExample]
  have hM : (fppExample.M : ℝ) = 2 := by norm_num [Filter.M, fppExample]
  unfold Filter.FalsePosititveProbability specFalsePositiveProbability
  rw [hK, hN, hM, Real.rpow_one, Real.rpow_one]
  have h1 : Real.exp (-(1 : ℝ)) = Real.exp (-(1/2 : ℝ)) * Real.exp (-(1/2 : ℝ)) := by
    rw [← Real.exp_add]
    norm_num
  have h2 : Real.exp (-(1/2 : ℝ)) < 1 := Real.exp_lt_one_iff.2 (by norm_num)
  have h3 : 0 < Real.exp (-(1/2 : ℝ)) := Real.exp_pos _
  intro heq
  rw [show (-(1 * ((0 : ℝ) + 0.5) / (2 - 1))) = -(1/2 : ℝ) by norm_num] at heq
  have heq2 : Real.exp (-(1 : ℝ)) * (1/2) = Real.exp (-(1/2 : ℝ)) := by
    norm_num at heq
    linarith
  nlinarith [heq2, h1, h2, h3]

/-- C3: for compatible filters with construction-length word arrays,
`Union` succeeds and returns a fresh filter sharing `f`'s m and keys whose
word array is the positionwise OR of the operands' arrays (its counter
starts at 0, from `NewCompatible`).  The operands are only read: the model
returns the new filter and leaves `f` and `f2` values untouched. -/
theorem union_spec (f f2 : Filter) (hc : f.isCompatible f2 = true)
    (hlen : f.bits.length = (f.m + 63) / 64)
    (hlen2 : f2.bits.length = (f2.m + 63) / 64) :
    f.Union f2 =
      some (some { bits := List.zipWith (fun a b => a ||| b) f.bits f2.bits,
                   keys := f.keys, m := f.m, n := 0 }, none) := by
  obtain ⟨hm, hkeys⟩ := (isCompatible_iff f f2).1 hc
  unfold Filter.Union
  rw [verifyCompatible_of_compatible hc]
  show some (some { f.NewCompatible with
    bits := storeOrWords f.NewCompatible.bits f.bits f2.bits }, none) = _
  rw [show f.NewCompatible.bits = List.replicate ((f.m + 63) / 64) 0 from rfl]
  rw [storeOrWords_eq_zipWith _ _ _ (by simp [hlen]) (by rw [hlen, hlen2, hm])]
  rfl

theorem union_spec_witness :
    exFilter2.Union (exFilter.Add 5) =
      some (some { bits := List.zipWith (fun a b => a ||| b)
                     exFilter2.bits (exFilter.Add 5).bits,
                   keys := exFilter2.keys, m := exFilter2.m, n := 0 }, none) :=
  union_spec exFilter2 (exFilter.Add 5) (by decide) (by decide) (by decide)

/-- C4: for compatible filters with equal-length word arrays (the
construction invariant), `UnionInPlace` succeeds, each word of `f` becomes
its prior value ORed with the corresponding word of `f2`, and `keys`, `m`
and in particular the insertion counter `n` of `f` are unchanged.  `f2` is
only read: the model never produces a modified `f2`. -/
theorem unionInPlace_spec (f f2 : Filter) (hc : f.isCompatible f2 = true)
    (hlen : f.bits.length = (f.m + 63) / 64)
    (hlen2 : f2.bits.length = (f2.m + 63) / 64) :
    f.UnionInPlace f2 =
      some ({ bits := List.zipWith (fun a b => a ||| b) f.bits f2.bits,
              keys := f.keys, m := f.m, n := f.n }, none) := by
  obtain ⟨hm, hkeys⟩ := (isCompatible_iff f f2).1 hc
  unfold Filter.UnionInPlace
  rw [verifyCompatible_of_compatible hc]
  rw [show orWords f.bits f2.bits = List.zipWith (fun a b => a ||| b) f.bits f2.bits
    from orWords_eq_zipWith f.bits f2.bits (by rw [hlen, hlen2, hm])]

theorem unionInPlace_spec_witness :
    exFilter2.UnionInPlace (exFilter.Add 5) =
      some ({ bits := List.zipWith (fun a b => a ||| b)
                exFilter2.bits (exFilter.Add 5).bits,
              keys := exFilter2.keys, m := exFilter2.m, n := exFilter2.n }, none) :=
  unionInPlace_spec exFilter2 (exFilter.Add 5) (by decide) (by decide) (by decide)

/-- C5: the claim says that on incompatible operands `Union` and
`UnionInPlace` always return an `Incompatible` error (leaving both operands
unmutated) and that `verifyCompatible` returns no error exactly when the
filters are compatible.  The code violates this: whenever `f.keys` is
longer than `f2.keys`, the unguarded `noBranchCompareUint64s(f.keys,
f2.keys)` call inside `verifyCompatible` indexes past the end of `f2.keys`
and panics at runtime (modelled by `none`) instead of returning the error.
This theorem evaluates the code at such a failing input: `panicF` has two
keys, `panicF2` one. -/
theorem verifyCompatible_panics :
    panicF.verifyCompatible panicF2 = none ∧
      panicF.Union panicF2 = none ∧
      panicF.UnionInPlace panicF2 = none := by
  decide

/-- C6: `IsCompatible(f, f2)` is true exactly when the sizes agree, the
key counts agree and the key sequences are positionwise identical (i.e. the
key lists are equal); and `IsCompatible(f, f)` always holds. -/
theorem isCompatible_characterization (f f2 : Filter) :
    (f.IsCompatible f2 = true ↔ f.M = f2.M ∧ f.K = f2.K ∧ f.keys = f2.keys) ∧
      f.IsCompatible f = true := by
  constructor
  · rw [show f.IsCompatible f2 = f.isCompatible f2 from rfl, isCompatible_iff]
    constructor
    · rintro ⟨hm, hk⟩
      exact ⟨hm, by rw [Filter.K, Filter.K, hk], hk⟩
    · rintro ⟨hm, _, hk⟩
      exact ⟨hm, hk⟩
  · rw [show f.IsCompatible f = f.isCompatible f from rfl]
    exact (isCompatible_iff f f).2 ⟨rfl, rfl⟩

theorem isCompatible_characterization_witness :
    (exFilter.IsCompatible panicF = true ↔
      exFilter.M = panicF.M ∧ exFilter.K = panicF.K ∧ exFilter.keys = panicF.keys) ∧
      exFilter.IsCompatible exFilter = true :=
  isCompatible_characterization exFilter panicF

/-- C7: provided the 64-bit insertion counter does not wrap, `AddC(v)`
increments `n` by one, and returns true if and only if every one of the k
target bits (indices `(v XOR key_i) mod m`) was already set before the
call; in particular on a filter whose words are all zero and whose key list
is nonempty (k ≥ 1), `AddC` returns false. -/
theorem addC_spec (f : Filter) (v : Nat) (hn : f.n + 1 < 2 ^ 64) :
    (f.AddC v).1.n = f.n + 1 ∧
      ((f.AddC v).2 = true ↔ f.HasAll v) ∧
      ((∀ w ∈ f.bits, w = 0) → f.keys ≠ [] → (f.AddC v).2 = false) := by
  refine ⟨?_, addC_snd_iff f v, ?_⟩
  · show (f.n + 1) % 2 ^ 64 = f.n + 1
    exact Nat.mod_eq_of_lt hn
  · intro hzero hkeys
    rw [← Bool.not_eq_true, addC_snd_iff f v]
    intro hall
    obtain ⟨key, hkey⟩ := List.exists_mem_of_ne_nil f.keys hkeys
    exact hall key hkey (getBitVal_of_all_zero hzero _)

theorem addC_spec_witness :
    exFilter.n + 1 < 2 ^ 64 ∧
      ((exFilter.AddC 5).1.n = exFilter.n + 1 ∧
        ((exFilter.AddC 5).2 = true ↔ exFilter.HasAll 5) ∧
        ((∀ w ∈ exFilter.bits, w = 0) → exFilter.keys ≠ [] →
          (exFilter.AddC 5).2 = false)) :=
  ⟨by decide, addC_spec exFilter 5 (by decide)⟩

/-- C8: under the construction invariants `m ≥ 1` and
`len(bits) = ceil(m/64)`, every bit index derived by `Add`, `AddC` and
`Contains` (the elements of `hash v`, each reduced mod m before use) yields
an in-bounds word-array access `(i mod m) >> 6 < len(bits)`, for any hash
and any key set. -/
theorem index_in_bounds (f : Filter) (hm : 1 ≤ f.m)
    (hlen : f.bits.length = (f.m + 63) / 64) (v : Nat) :
    ∀ i ∈ f.hash v, (i % f.m) >>> 6 < f.bits.length :=
  fun i _ => wordIndex_lt hm hlen i

theorem index_in_bounds_witness :
    (4 % exFilter.m) >>> 6 < exFilter.bits.length :=
  index_in_bounds exFilter (by decide) (by decide) 5 4 (by decide)

/-- C9 (counterexample): the claim that `Copy`, `Union`, `UnionInPlace` and
`IsCompatible` all acquire the filter's concurrency guard in exclusive mode
is false of the source: only `Copy` calls `lock.Lock()`; the other three
call `lock.RLock()`, the shared acquisition mode. -/
theorem guardModes_not_all_exclusive :
    ¬ (guardMode .copy = .exclusive ∧ guardMode .union = .exclusive ∧
       guardMode .unionInPlace = .exclusive ∧
       guardMode .isCompatibleQ = .exclusive) := by
  decide

/-- C9 (amended): `Copy` acquires the guard in exclusive mode
(`lock.Lock`), while `Union`, `UnionInPlace`, `IsCompatible` and the
compatibility verification acquire it in shared mode (`lock.RLock`) on both
filters involved. -/
theorem guardModes_actual :
    guardMode .copy = .exclusive ∧ guardMode .union = .shared ∧
      guardMode .unionInPlace = .shared ∧ guardMode .isCompatibleQ = .shared ∧
      guardMode .verifyCompat = .shared := by
  decide

/-- C10: bit monotonicity.  No sequential call on an existing filter —
`Add`, `AddC`, `Contains`, or `UnionInPlace` (successful or not) — ever
clears a set bit: for every word position, the word after the call has
every bit that was set before it (`BitsMono`), so the set of one-bits only
grows. -/
theorem op_bits_monotone (f : Filter) (op : FilterOpCall) :
    BitsMono f.bits (applyOp f op).bits :=
  applyOp_bitsMono f op

end Bloomfilter
